import Mathlib

/-!
Verification of the credential manager of `owlkit`
(`src/owlkit/config/credentials.py`, class `CredentialManager`).

The Python class stores secrets under a composite key `"{service}:{username}"`
in one of two backends: the OS keyring (when a probe at construction succeeds)
and an encrypted JSON file (`credentials.enc`) protected by a symmetric key
kept in a separate key file (`.key`).

Shallow embedding choices:
* Python `dict` objects parsed from / serialized to JSON are association lists
  with Python `dict` semantics: lookup finds the first matching key, assignment
  replaces in place or appends at the end, `del` removes the entry.
* The Fernet authenticated-encryption scheme is modelled symbolically: a blob
  either is a ciphertext `enc key payload` produced by the code, or arbitrary
  junk bytes; decryption succeeds exactly when the key matches, and the
  subsequent `json.loads` succeeds exactly when the payload is valid JSON —
  an object, or any other JSON value (which no read path can distinguish from
  a parse failure, since their `try` blocks also cover the dict operations).
* The filesystem is the part the class touches: the configuration directory,
  the key file and the encrypted blob file, each with its permission mode.
* External nondeterminism (a keyring call raising, the key generated by
  `Fernet.generate_key`) is passed in as explicit parameters: `krFails : Bool`
  is true when the keyring call of that operation raises, and `fresh : Nat` is
  the key material generated if the key file has to be created.
* Exceptions swallowed by `except Exception: pass` are modelled by the
  corresponding branch of the Lean function, so the read paths are total;
  `set_credential` alone can raise past its `try` (an uncaught `TypeError`
  at the update line when the blob decrypts to non-object JSON) and therefore
  returns `Except State State`, the error carrying the state at the raise.
-/

namespace Owlkit

/-- A JSON object mapping composite keys to secrets, as an association list in
insertion order (Python `dict` iteration order). -/
abbrev CredMap := List (String × String)

/-- Python `dict.get` / keyring lookup: first entry with the given key. -/
def lookupD : CredMap → String → Option String
  | [], _ => none
  | (k₀, v) :: rest, k => if k₀ = k then some v else lookupD rest k

/-- Python `creds[k] = v`: replace the entry in place if the key is present,
otherwise append at the end. -/
def dictInsert : CredMap → String → String → CredMap
  | [], k, v => [(k, v)]
  | (k₀, v₀) :: rest, k, v =>
    if k₀ = k then (k, v) :: rest else (k₀, v₀) :: dictInsert rest k v

/-- Python `del creds[k]` (and keyring deletion): remove the entry. -/
def dictErase (m : CredMap) (k : String) : CredMap :=
  m.filter (fun p => p.1 ≠ k)

/-- Python `k in creds`. -/
def containsKey (m : CredMap) (k : String) : Bool :=
  m.any (fun p => p.1 = k)

/-- The plaintext bytes inside a Fernet ciphertext: a JSON object, a valid
JSON document that is not an object (list, string, number, boolean, null —
`json.loads` succeeds but the result has no `.get` and rejects string-keyed
assignment), or bytes `json.loads` rejects. -/
inductive Payload where
  | jsonMap (m : CredMap)
  | jsonOther (tag : Nat)
  | notJson (s : String)
deriving DecidableEq

/-- Contents of the encrypted blob file: either a Fernet ciphertext produced
under some key, or arbitrary bytes that are not a valid Fernet token. -/
inductive Blob where
  | enc (key : Nat) (p : Payload)
  | junk (bytes : Nat)
deriving DecidableEq

/-- `Fernet(key).decrypt` followed by `json.loads`: succeeds iff the blob is a
ciphertext under exactly this key whose plaintext is valid JSON (an object or
any other JSON value). -/
def loadPayload (key : Nat) : Blob → Option Payload
  | .enc k p =>
    if k = key then
      match p with
      | .notJson _ => none
      | q => some q
    else none
  | .junk _ => none

/-- Decrypt, parse, and use the result as a dict: succeeds iff the plaintext
is a JSON object. This is the combination the read paths observe: in
`get_credential`, `delete_credential` and `list_credentials` the surrounding
`try` also covers the subsequent dict operations, so a non-object JSON value
(whose `.get`/`del`/unpacking raises) is indistinguishable there from a
decrypt or parse failure. -/
def decryptParse (key : Nat) (b : Blob) : Option CredMap :=
  match loadPayload key b with
  | some (.jsonMap m) => some m
  | _ => none

/-- The slice of the filesystem the class touches. `dirMode`, and the first
component of the file fields, are permission bits (e.g. `0o700 = 448`);
`none` means the directory / file does not exist. -/
structure FS where
  dirMode : Option Nat
  keyFile : Option (Nat × Nat)
  credsFile : Option (Nat × Blob)
deriving DecidableEq

/-- A `CredentialManager` instance together with the world it acts on:
`keyringAvailable` is the instance flag set by the construction-time probe,
`fs` is the configuration directory, and `kr` is the OS keyring content under
the fixed service name `"owlkit"`, keyed by composite key. -/
structure State where
  keyringAvailable : Bool
  fs : FS
  kr : CredMap
deriving DecidableEq

/-- `CredentialManager.__init__`: `mkdir(exist_ok=True, mode=0o700)` creates
the directory with mode `0o700` when absent and leaves it untouched when
present, then a harmless keyring read probes availability; `probeFails` is
true when that read raises. -/
def init (fs₀ : FS) (kr₀ : CredMap) (probeFails : Bool) : State :=
  { keyringAvailable := !probeFails
    fs := { fs₀ with dirMode := some (fs₀.dirMode.getD 448) }
    kr := kr₀ }

/-- `CredentialManager._get_or_create_key`: read the key file if it exists,
otherwise generate `fresh`, write it and `chmod 0o600`. Returns the key and
the (possibly updated) filesystem. -/
def getOrCreateKey (fs : FS) (fresh : Nat) : Nat × FS :=
  match fs.keyFile with
  | some km => (km.2, fs)
  | none => (fresh, { fs with keyFile := some (384, fresh) })

/-- The composite key `f"{service}:{username}"`. -/
def fullKey (service username : String) : String :=
  service ++ ":" ++ username

/-- Write the encrypted blob file and `chmod 0o600`. -/
def writeBlob (fs : FS) (b : Blob) : FS :=
  { fs with credsFile := some (384, b) }

/-- `CredentialManager.get_credential`. When the keyring is available and the
keyring read does not raise, its result (even a miss) is returned directly;
otherwise the encrypted file is consulted, and any decrypt/parse failure
yields `none`. Returns the result and the filesystem after the call (the key
file may have been created inside the `try`). -/
def get_credential (st : State) (service username : String)
    (krFails : Bool) (fresh : Nat) : Option String × State :=
  let k := fullKey service username
  if st.keyringAvailable && !krFails then
    (lookupD st.kr k, st)
  else
    match st.fs.credsFile with
    | none => (none, st)
    | some (_, blob) =>
      let kf := getOrCreateKey st.fs fresh
      match decryptParse kf.1 blob with
      | none => (none, { st with fs := kf.2 })
      | some creds => (lookupD creds k, { st with fs := kf.2 })

/-- `CredentialManager.set_credential`. When the keyring is available and the
keyring write does not raise, the function returns after the write-through.
Otherwise the file path runs: load-or-create the key, then load the existing
blob inside a `try` that covers only the decrypt and the parse (source lines
109-115); a failure there yields the empty map. The update
`creds[full_key] = password` (line 118) is outside that `try`: when the blob
decrypted to valid JSON that is not an object, the string-keyed assignment
raises an uncaught `TypeError`, modelled as `.error` carrying the state at
the raise (the key file may already have been created); nothing is written.
On success the updated map is re-encrypted, written, and `chmod 0o600`. -/
def set_credential (st : State) (service username password : String)
    (krFails : Bool) (fresh : Nat) : Except State State :=
  let k := fullKey service username
  if st.keyringAvailable && !krFails then
    .ok { st with kr := dictInsert st.kr k password }
  else
    let kf := getOrCreateKey st.fs fresh
    match kf.2.credsFile with
    | none =>
      .ok { st with fs := writeBlob kf.2 (.enc kf.1 (.jsonMap (dictInsert [] k password))) }
    | some (_, b) =>
      match loadPayload kf.1 b with
      | some (.jsonMap m) =>
        .ok { st with fs := writeBlob kf.2 (.enc kf.1 (.jsonMap (dictInsert m k password))) }
      | some (.jsonOther _) => .error { st with fs := kf.2 }
      | _ =>
        .ok { st with fs := writeBlob kf.2 (.enc kf.1 (.jsonMap (dictInsert [] k password))) }

/-- `CredentialManager.delete_credential`: delete from the keyring when
available (a raise, including a missing key, is swallowed), then remove the
key from the encrypted file when the file exists and decrypts; when the key
is absent from the decrypted map, nothing is written. -/
def delete_credential (st : State) (service username : String)
    (krFails : Bool) (fresh : Nat) : State :=
  let k := fullKey service username
  let st₁ := if st.keyringAvailable && !krFails then
      { st with kr := dictErase st.kr k }
    else st
  match st₁.fs.credsFile with
  | none => st₁
  | some (mode, blob) =>
    let kf := getOrCreateKey st₁.fs fresh
    match decryptParse kf.1 blob with
    | none => { st₁ with fs := kf.2 }
    | some creds =>
      if containsKey creds k then
        let blob := Blob.enc kf.1 (.jsonMap (dictErase creds k))
        { st₁ with fs := { kf.2 with credsFile := some (mode, blob) } }
      else { st₁ with fs := kf.2 }

/-- `full_key.split(':', 1)` followed by unpacking into two variables, on the
underlying character list: `none` models the `ValueError` raised when the
delimiter is absent. -/
def splitOnceL : List Char → Option (List Char × List Char)
  | [] => none
  | c :: rest =>
    if c = ':' then some ([], rest)
    else match splitOnceL rest with
      | none => none
      | some ab => some (c :: ab.1, ab.2)

/-- `full_key.split(':', 1)` on strings. -/
def splitOnce (s : String) : Option (String × String) :=
  match splitOnceL s.data with
  | none => none
  | some ab => some (⟨ab.1⟩, ⟨ab.2⟩)

/-- `creds[service].append(username)`, creating `creds[service] = []` first
when absent: append to the first entry for the service, or add a new service
group at the end. -/
def addTo : List (String × List String) → String → String → List (String × List String)
  | [], s, u => [(s, [u])]
  | (s₀, l) :: rest, s, u =>
    if s₀ = s then (s₀, l ++ [u]) :: rest
    else (s₀, l) :: addTo rest s u

/-- The `for full_key in stored_creds` loop of `list_credentials`, with the
surrounding `try`: a key without the delimiter raises and the loop aborts,
returning the groupings accumulated so far. -/
def gatherLoop : CredMap → List (String × List String) → List (String × List String)
  | [], acc => acc
  | (k, _) :: rest, acc =>
    match splitOnce k with
    | none => acc
    | some su => gatherLoop rest (addTo acc su.1 su.2)

/-- `CredentialManager.list_credentials`: the keyring branch contributes
nothing; the encrypted file, when present and decryptable, is grouped by the
loop. Returns the result and the filesystem after the call. -/
def list_credentials (st : State) (fresh : Nat) :
    List (String × List String) × State :=
  match st.fs.credsFile with
  | none => ([], st)
  | some (_, blob) =>
    let kf := getOrCreateKey st.fs fresh
    match decryptParse kf.1 blob with
    | none => ([], { st with fs := kf.2 })
    | some stored => (gatherLoop stored [], { st with fs := kf.2 })

/-! ### Association-list lemmas (Python `dict` semantics) -/

theorem lookupD_dictInsert_self (m : CredMap) (k v : String) :
    lookupD (dictInsert m k v) k = some v := by
  induction m with
  | nil => simp [dictInsert, lookupD]
  | cons p rest ih =>
    by_cases h : p.1 = k
    · simp [dictInsert, lookupD, h]
    · simp [dictInsert, lookupD, h, ih]

theorem lookupD_dictInsert_ne (m : CredMap) (k v k₁ : String) (h : k₁ ≠ k) :
    lookupD (dictInsert m k v) k₁ = lookupD m k₁ := by
  induction m with
  | nil => simp [dictInsert, lookupD, Ne.symm h]
  | cons p rest ih =>
    by_cases hp : p.1 = k
    · subst hp
      simp [dictInsert, lookupD, Ne.symm h]
    · by_cases hq : p.1 = k₁ <;> simp [dictInsert, lookupD, hp, hq, ih, h]

theorem dictErase_idem (m : CredMap) (k : String) :
    dictErase (dictErase m k) k = dictErase m k := by
  simp [dictErase, List.filter_filter]

theorem containsKey_dictErase_self (m : CredMap) (k : String) :
    containsKey (dictErase m k) k = false := by
  simp [containsKey, dictErase, List.any_eq_true]

theorem mem_dictInsert (m : CredMap) (k v : String) (p : String × String)
    (h : p ∈ dictInsert m k v) : p ∈ m ∨ p = (k, v) := by
  induction m with
  | nil => simpa [dictInsert] using h
  | cons q rest ih =>
    by_cases hq : q.1 = k
    · simp only [dictInsert, if_pos hq, List.mem_cons] at h
      rcases h with h | h
      · right; exact h
      · left; simp [h]
    · simp only [dictInsert, if_neg hq, List.mem_cons] at h
      rcases h with h | h
      · left; simp [h]
      · rcases ih h with h₁ | h₁
        · left; simp [h₁]
        · right; exact h₁

theorem exSplit_dictInsert (m : CredMap) (k v : String) (su : String × String) :
    (∃ p ∈ dictInsert m k v, splitOnce p.1 = some su) ↔
      (∃ p ∈ m, splitOnce p.1 = some su) ∨ splitOnce k = some su := by
  induction m with
  | nil => simp [dictInsert]
  | cons q rest ih =>
    by_cases hq : q.1 = k
    · simp only [dictInsert, if_pos hq, List.mem_cons]
      constructor
      · rintro ⟨p, hp | hp, hsp⟩
        · right; rw [hp] at hsp; exact hsp
        · exact Or.inl ⟨p, Or.inr hp, hsp⟩
      · rintro (⟨p, hp | hp, hsp⟩ | hs)
        · refine ⟨(k, v), Or.inl rfl, ?_⟩
          rw [hp] at hsp
          rw [hq] at hsp
          exact hsp
        · exact ⟨p, Or.inr hp, hsp⟩
        · exact ⟨(k, v), Or.inl rfl, hs⟩
    · simp only [dictInsert, if_neg hq, List.mem_cons]
      constructor
      · rintro ⟨p, hp | hp, hsp⟩
        · exact Or.inl ⟨p, Or.inl hp, hsp⟩
        · rcases (ih).mp ⟨p, hp, hsp⟩ with ⟨p₁, hp₁, hsp₁⟩ | hs
          · exact Or.inl ⟨p₁, Or.inr hp₁, hsp₁⟩
          · exact Or.inr hs
      · rintro (⟨p, hp | hp, hsp⟩ | hs)
        · exact ⟨p, Or.inl hp, hsp⟩
        · rcases (ih).mpr (Or.inl ⟨p, hp, hsp⟩) with ⟨p₁, hp₁, hsp₁⟩
          exact ⟨p₁, Or.inr hp₁, hsp₁⟩
        · rcases (ih).mpr (Or.inr hs) with ⟨p₁, hp₁, hsp₁⟩
          exact ⟨p₁, Or.inr hp₁, hsp₁⟩

/-! ### Splitting and grouping lemmas -/

theorem data_append (s t : String) : (s ++ t).data = s.data ++ t.data := by
  cases s
  cases t
  rfl

theorem splitOnceL_append_colon (a b : List Char) :
    (splitOnceL (a ++ ':' :: b)).isSome := by
  induction a with
  | nil => simp [splitOnceL]
  | cons c rest ih =>
    by_cases hc : c = ':'
    · simp [splitOnceL, hc]
    · simp only [List.cons_append, splitOnceL, if_neg hc]
      rcases hs : splitOnceL (rest ++ ':' :: b) with _ | ab
      · rw [hs] at ih
        simp at ih
      · simp

theorem splitOnce_fullKey_isSome (s u : String) :
    (splitOnce (fullKey s u)).isSome := by
  have hcolon : (":" : String).data = [':'] := rfl
  have hd : (fullKey s u).data = s.data ++ ':' :: u.data := by
    show (s ++ ":" ++ u).data = _
    rw [data_append, data_append, hcolon, List.append_assoc]
    rfl
  rw [splitOnce, hd]
  rcases hs : splitOnceL (s.data ++ ':' :: u.data) with _ | ab
  · have := splitOnceL_append_colon s.data u.data
    rw [hs] at this
    simp at this
  · simp

/-- Membership of an identity in a service group of a `list_credentials`
result. -/
def inResult (r : List (String × List String)) (svc id : String) : Prop :=
  ∃ l, (svc, l) ∈ r ∧ id ∈ l

theorem inResult_addTo (acc : List (String × List String)) (s u svc id : String) :
    inResult (addTo acc s u) svc id ↔
      inResult acc svc id ∨ (s = svc ∧ u = id) := by
  induction acc with
  | nil =>
    simp only [addTo, inResult]
    constructor
    · rintro ⟨l, hl, hid⟩
      simp only [List.mem_singleton, Prod.mk.injEq] at hl
      obtain ⟨h₁, h₂⟩ := hl
      subst h₂
      simp only [List.mem_singleton] at hid
      exact Or.inr ⟨h₁.symm, hid.symm⟩
    · rintro (⟨l, hl, hid⟩ | ⟨h₁, h₂⟩)
      · simp at hl
      · exact ⟨[u], by simp [h₁], by simp [h₂]⟩
  | cons q rest ih =>
    obtain ⟨s₀, l₀⟩ := q
    by_cases hq : s₀ = s
    · subst hq
      simp only [addTo, eq_self_iff_true, if_true, inResult, List.mem_cons,
        Prod.mk.injEq]
      constructor
      · rintro ⟨l, ⟨hsvc, rfl⟩ | hl, hid⟩
        · rcases List.mem_append.mp hid with hid | hid
          · exact Or.inl ⟨l₀, Or.inl ⟨hsvc, rfl⟩, hid⟩
          · exact Or.inr ⟨hsvc.symm, (List.mem_singleton.mp hid).symm⟩
        · exact Or.inl ⟨l, Or.inr hl, hid⟩
      · rintro (⟨l, ⟨hsvc, rfl⟩ | hl, hid⟩ | ⟨hsvc, rfl⟩)
        · exact ⟨l ++ [u], Or.inl ⟨hsvc, rfl⟩, List.mem_append.mpr (Or.inl hid)⟩
        · exact ⟨l, Or.inr hl, hid⟩
        · exact ⟨l₀ ++ [u], Or.inl ⟨hsvc.symm, rfl⟩, by simp⟩
    · simp only [addTo, if_neg hq, inResult, List.mem_cons, Prod.mk.injEq] at ih ⊢
      constructor
      · rintro ⟨l, ⟨hsvc, rfl⟩ | hl, hid⟩
        · exact Or.inl ⟨l, Or.inl ⟨hsvc, rfl⟩, hid⟩
        · rcases ih.mp ⟨l, hl, hid⟩ with ⟨l₁, hl₁, hid₁⟩ | hs
          · exact Or.inl ⟨l₁, Or.inr hl₁, hid₁⟩
          · exact Or.inr hs
      · rintro (⟨l, ⟨hsvc, rfl⟩ | hl, hid⟩ | hs)
        · exact ⟨l, Or.inl ⟨hsvc, rfl⟩, hid⟩
        · obtain ⟨l₁, hl₁, hid₁⟩ := ih.mpr (Or.inl ⟨l, hl, hid⟩)
          exact ⟨l₁, Or.inr hl₁, hid₁⟩
        · obtain ⟨l₁, hl₁, hid₁⟩ := ih.mpr (Or.inr hs)
          exact ⟨l₁, Or.inr hl₁, hid₁⟩

theorem inResult_gatherLoop (m : CredMap) (acc : List (String × List String))
    (svc id : String) (hall : ∀ p ∈ m, (splitOnce p.1).isSome) :
    inResult (gatherLoop m acc) svc id ↔
      inResult acc svc id ∨ ∃ p ∈ m, splitOnce p.1 = some (svc, id) := by
  induction m generalizing acc with
  | nil => simp [gatherLoop]
  | cons q rest ih =>
    have hq : (splitOnce q.1).isSome := hall q (List.mem_cons_self q rest)
    rcases hs : splitOnce q.1 with _ | su
    · rw [hs] at hq
      simp at hq
    · obtain ⟨s₁, u₁⟩ := su
      have hrest : ∀ p ∈ rest, (splitOnce p.1).isSome := by
        intro p hp
        exact hall p (List.mem_cons_of_mem q hp)
      obtain ⟨k, v⟩ := q
      simp only at hs
      simp only [gatherLoop, hs, ih _ hrest, inResult_addTo, List.mem_cons]
      constructor
      · rintro ((hacc | ⟨h₁, h₂⟩) | ⟨p, hp, hsp⟩)
        · exact Or.inl hacc
        · exact Or.inr ⟨(k, v), Or.inl rfl, by rw [hs, h₁, h₂]⟩
        · exact Or.inr ⟨p, Or.inr hp, hsp⟩
      · rintro (hacc | ⟨p, hp | hp, hsp⟩)
        · exact Or.inl (Or.inl hacc)
        · rw [hp] at hsp
          simp only at hsp
          rw [hs] at hsp
          obtain ⟨h₁, h₂⟩ := Prod.mk.injEq .. ▸ Option.some.injEq .. ▸ hsp
          exact Or.inl (Or.inr ⟨h₁, h₂⟩)
        · exact Or.inr ⟨p, hp, hsp⟩

theorem gatherLoop_abort (pre post : CredMap) (bad v : String)
    (acc : List (String × List String))
    (hpre : ∀ p ∈ pre, (splitOnce p.1).isSome)
    (hbad : splitOnce bad = none) :
    gatherLoop (pre ++ (bad, v) :: post) acc = gatherLoop pre acc := by
  induction pre generalizing acc with
  | nil => simp [gatherLoop, hbad]
  | cons q rest ih =>
    have hq : (splitOnce q.1).isSome := hpre q (List.mem_cons_self q rest)
    rcases hs : splitOnce q.1 with _ | su
    · rw [hs] at hq
      simp at hq
    · obtain ⟨k, w⟩ := q
      simp only at hs
      have hrest : ∀ p ∈ rest, (splitOnce p.1).isSome := by
        intro p hp
        exact hpre p (List.mem_cons_of_mem _ hp)
      simp only [List.cons_append, gatherLoop, hs]
      exact ih (addTo acc su.1 su.2) hrest

/-! ### Key-file and set-success lemmas -/

theorem getOrCreateKey_keyFile (fs : FS) (fresh : Nat) :
    ∃ mo, (getOrCreateKey fs fresh).2.keyFile
      = some (mo, (getOrCreateKey fs fresh).1) := by
  rcases h : fs.keyFile with _ | km
  · exact ⟨384, by simp [getOrCreateKey, h]⟩
  · exact ⟨km.1, by simp [getOrCreateKey, h]⟩

theorem getOrCreateKey_credsFile (fs : FS) (fresh : Nat) :
    (getOrCreateKey fs fresh).2.credsFile = fs.credsFile := by
  rcases h : fs.keyFile with _ | km <;> simp [getOrCreateKey, h]

/-- The map `set_credential` works on when its load step does not raise:
`creds = {}` when the blob is absent or its decrypt-or-parse fails, the
decrypted object otherwise. -/
def loadCreds (key : Nat) : Option (Nat × Blob) → CredMap
  | none => []
  | some mb => (decryptParse key mb.2).getD []

/-- The filesystem after a successful file-path write of `set_credential`:
load-or-create the key, load the map (empty on load failure), insert, write. -/
def setWriteFS (fs : FS) (f : Nat) (key pw : String) : FS :=
  writeBlob (getOrCreateKey fs f).2 (.enc (getOrCreateKey fs f).1
    (.jsonMap (dictInsert (loadCreds (getOrCreateKey fs f).1 fs.credsFile) key pw)))

/-- Inversion of a successful `set_credential`: the result is either the
keyring write-through or the file write of the loaded map extended with the
new entry. -/
theorem set_ok_inv (st : State) (svc id pw : String) (kf : Bool) (f : Nat)
    (st₁ : State) (hok : set_credential st svc id pw kf f = .ok st₁) :
    ((st.keyringAvailable && !kf) = true ∧
      st₁ = { st with kr := dictInsert st.kr (fullKey svc id) pw }) ∨
    ((st.keyringAvailable && !kf) = false ∧
      st₁ = { st with fs := setWriteFS st.fs f (fullKey svc id) pw }) := by
  cases hc : st.keyringAvailable && !kf
  · right
    refine ⟨rfl, ?_⟩
    simp only [set_credential, hc, Bool.false_eq_true, if_false,
      getOrCreateKey_credsFile] at hok
    rcases hcf : st.fs.credsFile with _ | mb
    · rw [hcf] at hok
      simp only [Except.ok.injEq] at hok
      rw [← hok]
      simp [setWriteFS, writeBlob, loadCreds, hcf]
    · obtain ⟨cm, b⟩ := mb
      rw [hcf] at hok
      simp only at hok
      rcases hlp : loadPayload (getOrCreateKey st.fs f).1 b with _ | p
      · rw [hlp] at hok
        simp only [Except.ok.injEq] at hok
        rw [← hok]
        simp [setWriteFS, writeBlob, loadCreds, decryptParse, hcf, hlp]
      · cases p with
        | jsonMap m =>
          rw [hlp] at hok
          simp only [Except.ok.injEq] at hok
          rw [← hok]
          simp [setWriteFS, writeBlob, loadCreds, decryptParse, hcf, hlp]
        | jsonOther t =>
          rw [hlp] at hok
          simp at hok
        | notJson s =>
          rw [hlp] at hok
          simp only [Except.ok.injEq] at hok
          rw [← hok]
          simp [setWriteFS, writeBlob, loadCreds, decryptParse, hcf, hlp]
  · left
    refine ⟨rfl, ?_⟩
    simp only [set_credential, hc, if_true] at hok
    simp only [Except.ok.injEq] at hok
    exact hok.symm

/-- Reading any key from a file-backend state whose blob is a well-formed
encrypted object is a lookup in that object. -/
theorem get_on_file_blob (st : State) (g1 : Nat) (g2 : FS) (M : CredMap)
    (svc id : String) (f₂ : Nat)
    (hka : st.keyringAvailable = false)
    (hkeyf : ∃ mo, g2.keyFile = some (mo, g1)) :
    (get_credential { st with fs := writeBlob g2 (.enc g1 (.jsonMap M)) }
        svc id false f₂).1 = lookupD M (fullKey svc id) := by
  obtain ⟨mo, hk⟩ := hkeyf
  simp [get_credential, writeBlob, hka, getOrCreateKey, hk, decryptParse,
    loadPayload]

/-- A filesystem whose key file holds `key` and whose blob is a well-formed
encrypted JSON object `M` under that key. -/
def goodFS (fs : FS) (key : Nat) (M : CredMap) : Prop :=
  (∃ mo, fs.keyFile = some (mo, key)) ∧
    ∃ md, fs.credsFile = some (md, .enc key (.jsonMap M))

theorem goodFS_setWriteFS (fs : FS) (f : Nat) (k p : String) :
    goodFS (setWriteFS fs f k p) (getOrCreateKey fs f).1
      (dictInsert (loadCreds (getOrCreateKey fs f).1 fs.credsFile) k p) := by
  obtain ⟨mo, hk⟩ := getOrCreateKey_keyFile fs f
  exact ⟨⟨mo, by simp [setWriteFS, writeBlob, hk]⟩,
    ⟨384, by simp [setWriteFS, writeBlob]⟩⟩

theorem goodFS_writeBlob (fs : FS) (key : Nat) (M M₁ : CredMap)
    (hg : goodFS fs key M) :
    goodFS (writeBlob fs (.enc key (.jsonMap M₁))) key M₁ := by
  obtain ⟨⟨mo, hk⟩, _⟩ := hg
  exact ⟨⟨mo, by simp [writeBlob, hk]⟩, ⟨384, by simp [writeBlob]⟩⟩

/-- A file-backend write on a well-formed store extends the stored object. -/
theorem set_on_goodFS (st : State) (key : Nat) (M : CredMap) (s u p : String)
    (kf : Bool) (f : Nat)
    (hka : st.keyringAvailable = false) (hg : goodFS st.fs key M) :
    set_credential st s u p kf f
      = .ok { st with fs := writeBlob st.fs (.enc key (.jsonMap (dictInsert M (fullKey s u) p))) } := by
  obtain ⟨⟨mo, hk⟩, ⟨md, hc⟩⟩ := hg
  simp [set_credential, hka, getOrCreateKey, hk, hc, loadPayload, writeBlob]

/-- A file-backend read on a well-formed store is a lookup in the stored
object. -/
theorem get_on_goodFS (b : Bool) (fs : FS) (kr : CredMap) (key : Nat)
    (M : CredMap) (s u : String) (f : Nat)
    (hb : b = false) (hg : goodFS fs key M) :
    (get_credential ⟨b, fs, kr⟩ s u false f).1 = lookupD M (fullKey s u) := by
  obtain ⟨⟨mo, hk⟩, ⟨md, hc⟩⟩ := hg
  subst hb
  simp [get_credential, getOrCreateKey, hk, hc, decryptParse, loadPayload]

/-! ### Canonical states and iterated stores -/

/-- A manager constructed on a fresh configuration directory whose keyring
probe raised: the file-fallback backend from a clean slate. -/
def freshFileState : State := init ⟨none, none, none⟩ [] true

/-- A file-backend manager whose key file holds `k` and whose blob currently
encodes the JSON object `m`. -/
def fileStateOf (k : Nat) (m : CredMap) : State :=
  { keyringAvailable := false
    fs := ⟨some 448, some (384, k), some (384, .enc k (.jsonMap m))⟩
    kr := [] }

/-- Store a list of `(service, identity, secret)` triples in order; a raise
in any call aborts the sequence. -/
def setMany (st : State) (ts : List (String × String × String)) (fresh : Nat) :
    Except State State :=
  match ts with
  | [] => .ok st
  | t :: rest =>
    match set_credential st t.1 t.2.1 t.2.2 false fresh with
    | .ok st₁ => setMany st₁ rest fresh
    | .error e => .error e

/-- The credential map after inserting all triples of `ts` into `m`. -/
def insertAllC (m : CredMap) (ts : List (String × String × String)) : CredMap :=
  ts.foldl (fun acc t => dictInsert acc (fullKey t.1 t.2.1) t.2.2) m

theorem set_fileStateOf (k : Nat) (m : CredMap) (s u p : String)
    (kf : Bool) (f : Nat) :
    set_credential (fileStateOf k m) s u p kf f
      = .ok (fileStateOf k (dictInsert m (fullKey s u) p)) := by
  simp [set_credential, fileStateOf, getOrCreateKey, loadPayload, writeBlob]

theorem setMany_fileStateOf (ts : List (String × String × String))
    (k : Nat) (m : CredMap) (f : Nat) :
    setMany (fileStateOf k m) ts f = .ok (fileStateOf k (insertAllC m ts)) := by
  induction ts generalizing m with
  | nil => simp [setMany, insertAllC]
  | cons t rest ih =>
    simp only [setMany, set_fileStateOf]
    exact (ih (dictInsert m (fullKey t.1 t.2.1) t.2.2)).trans rfl

theorem set_freshFileState (s u p : String) (kf : Bool) (f : Nat) :
    set_credential freshFileState s u p kf f
      = .ok (fileStateOf f [(fullKey s u, p)]) := by
  simp [set_credential, freshFileState, init, fileStateOf, getOrCreateKey,
    dictInsert, writeBlob]

theorem list_fileStateOf (k : Nat) (m : CredMap) (f : Nat) :
    (list_credentials (fileStateOf k m) f).1 = gatherLoop m [] := by
  simp [list_credentials, fileStateOf, getOrCreateKey, decryptParse,
    loadPayload]

theorem exSplit_insertAllC (ts : List (String × String × String))
    (m : CredMap) (su : String × String) :
    (∃ p ∈ insertAllC m ts, splitOnce p.1 = some su) ↔
      (∃ p ∈ m, splitOnce p.1 = some su) ∨
        ∃ t ∈ ts, splitOnce (fullKey t.1 t.2.1) = some su := by
  induction ts generalizing m with
  | nil => simp [insertAllC]
  | cons t rest ih =>
    show (∃ p ∈ insertAllC (dictInsert m (fullKey t.1 t.2.1) t.2.2) rest, _) ↔ _
    rw [ih]
    rw [exSplit_dictInsert]
    simp [List.mem_cons, or_assoc]

theorem allSplit_insertAllC (ts : List (String × String × String))
    (m : CredMap) (hall : ∀ p ∈ m, (splitOnce p.1).isSome) :
    ∀ p ∈ insertAllC m ts, (splitOnce p.1).isSome := by
  induction ts generalizing m with
  | nil => simpa [insertAllC] using hall
  | cons t rest ih =>
    intro p hp
    refine ih (dictInsert m (fullKey t.1 t.2.1) t.2.2) ?_ p hp
    intro q hq
    rcases mem_dictInsert _ _ _ q hq with hq₁ | hq₁
    · exact hall q hq₁
    · rw [hq₁]
      exact splitOnce_fullKey_isSome t.1 t.2.1

/-! ### Claim theorems -/

/-- Claim C1: for every service, identity, and secret that are non-empty
strings, every completed call `set_credential(service, identity, secret)`
followed by `get_credential(service, identity)` on the same store instance
(with no keyring call raising) returns exactly `secret`, in both backends and
from any prior store state. -/
theorem roundtrip_set_get (st : State) (svc id secret : String)
    (hs : svc ≠ "") (hi : id ≠ "") (hp : secret ≠ "") (f f₂ : Nat)
    (st₁ : State) (hok : set_credential st svc id secret false f = .ok st₁) :
    (get_credential st₁ svc id false f₂).1 = some secret := by
  rcases set_ok_inv st svc id secret false f st₁ hok with ⟨hc, rfl⟩ | ⟨hc, rfl⟩
  · simp only [Bool.not_false, Bool.and_true] at hc
    simp [get_credential, hc, lookupD_dictInsert_self]
  · simp only [Bool.not_false, Bool.and_true] at hc
    simp only [setWriteFS]
    rw [get_on_file_blob st (getOrCreateKey st.fs f).1 (getOrCreateKey st.fs f).2
      (dictInsert (loadCreds (getOrCreateKey st.fs f).1 st.fs.credsFile)
        (fullKey svc id) secret) svc id f₂ hc (getOrCreateKey_keyFile st.fs f),
      lookupD_dictInsert_self]

theorem roundtrip_set_get_witness :
    ("github" : String) ≠ "" ∧ ("alice" : String) ≠ "" ∧
      ("tok-123" : String) ≠ "" ∧
      set_credential freshFileState "github" "alice" "tok-123" false 7
        = .ok (fileStateOf 7 [(fullKey "github" "alice", "tok-123")]) ∧
      (get_credential (fileStateOf 7 [(fullKey "github" "alice", "tok-123")])
        "github" "alice" false 9).1 = some "tok-123" :=
  ⟨by decide, by decide, by decide, rfl,
    roundtrip_set_get freshFileState "github" "alice" "tok-123"
      (by decide) (by decide) (by decide) 7 9
      (fileStateOf 7 [(fullKey "github" "alice", "tok-123")]) rfl⟩

/-- Claim C5: once the encryption key file exists, key retrieval returns
exactly the stored key material and leaves the filesystem untouched, so key
creation happens only when the file is absent. -/
theorem key_file_create_if_absent (fs : FS) (mo k fresh : Nat)
    (h : fs.keyFile = some (mo, k)) :
    getOrCreateKey fs fresh = (k, fs) := by
  simp [getOrCreateKey, h]

theorem key_file_create_if_absent_witness :
    (FS.mk (some 448) (some (384, 7)) none).keyFile = some (384, 7) ∧
      getOrCreateKey ⟨some 448, some (384, 7), none⟩ 99
        = (7, ⟨some 448, some (384, 7), none⟩) :=
  ⟨rfl, key_file_create_if_absent ⟨some 448, some (384, 7), none⟩ 384 7 99 rfl⟩

/-- Claim C6: the backend flag is set exactly once, by the construction-time
probe, and no later operation changes it — in particular a `set_credential`
call with a per-call keyring failure (`kf = true`), which falls back to the
file for that call, leaves the instance's flag untouched whenever it
completes. -/
theorem backend_probe_once (fs₀ : FS) (kr₀ : CredMap) (probeFails : Bool)
    (st : State) (svc id pw : String) (kf : Bool) (f : Nat) (st₁ : State)
    (hok : set_credential st svc id pw kf f = .ok st₁) :
    (init fs₀ kr₀ probeFails).keyringAvailable = !probeFails ∧
    st₁.keyringAvailable = st.keyringAvailable ∧
    (delete_credential st svc id kf f).keyringAvailable = st.keyringAvailable ∧
    ((get_credential st svc id kf f).2).keyringAvailable = st.keyringAvailable ∧
    ((list_credentials st f).2).keyringAvailable = st.keyringAvailable := by
  refine ⟨rfl, ?_, ?_, ?_, ?_⟩
  · rcases set_ok_inv st svc id pw kf f st₁ hok with ⟨_, rfl⟩ | ⟨_, rfl⟩ <;> rfl
  · cases hc : st.keyringAvailable && !kf <;>
      rcases hcf : st.fs.credsFile with _ | mb <;>
      simp only [delete_credential, hc, hcf, Bool.false_eq_true, if_false,
        if_true, reduceCtorEq] <;>
      first
        | rfl
        | (rcases hd : decryptParse (getOrCreateKey st.fs f).1 mb.2 with _ | creds <;>
            simp [hd] <;> split <;> rfl)
  · rcases hcf : st.fs.credsFile with _ | mb <;>
      simp only [get_credential, hcf] <;>
      first
        | (split <;> rfl)
        | (split
           · rfl
           · rcases hd : decryptParse (getOrCreateKey st.fs f).1 mb.2 with _ | creds <;>
               simp [hd])
  · rcases hcf : st.fs.credsFile with _ | mb <;>
      simp only [list_credentials, hcf] <;>
      first
        | rfl
        | (rcases hd : decryptParse (getOrCreateKey st.fs f).1 mb.2 with _ | creds <;>
            simp [hd])

/-- An OS-backend manager on a fresh configuration directory. -/
def keyringFreshState : State :=
  { keyringAvailable := true
    fs := ⟨some 448, none, none⟩
    kr := [] }

/-- `keyringFreshState` after a `set_credential` whose keyring write raised:
the credential went to the encrypted file, the flag is still the OS backend. -/
def keyringWroteFileState : State :=
  { keyringAvailable := true
    fs := ⟨some 448, some (384, 7),
      some (384, .enc 7 (.jsonMap [(fullKey "github" "alice", "tok")]))⟩
    kr := [] }

theorem backend_probe_once_witness :
    (init ⟨none, none, none⟩ [] false).keyringAvailable = !false ∧
    keyringWroteFileState.keyringAvailable
      = keyringFreshState.keyringAvailable ∧
    (delete_credential keyringFreshState "github" "alice" true 7).keyringAvailable
      = keyringFreshState.keyringAvailable ∧
    ((get_credential keyringFreshState "github" "alice" true 7).2).keyringAvailable
      = keyringFreshState.keyringAvailable ∧
    ((list_credentials keyringFreshState 7).2).keyringAvailable
      = keyringFreshState.keyringAvailable :=
  backend_probe_once ⟨none, none, none⟩ [] false keyringFreshState "github"
    "alice" "tok" true 7 keyringWroteFileState rfl

/-- A file-backend manager whose blob file holds bytes that do not decrypt
under the stored key. -/
def corruptState : State :=
  { keyringAvailable := false
    fs := ⟨some 448, some (384, 7), some (384, .junk 0)⟩
    kr := [] }

/-- A file-backend manager whose blob is a valid ciphertext under the current
key whose plaintext is valid JSON but not an object (e.g. `[1, 2]`). -/
def nonObjectJsonState : State :=
  { keyringAvailable := false
    fs := ⟨some 448, some (384, 7), some (384, .enc 7 (.jsonOther 0))⟩
    kr := [] }

/-- Claim C2 fails as stated: a blob decrypting to valid non-object JSON is
inside the claim's domain (it does not decrypt **and parse to a JSON
object**: `decryptParse` fails), `get_credential` does return absent, but the
subsequent `set_credential` does not succeed — the load `try` (source lines
109-115) does not cover the update at line 118, whose string-keyed assignment
on a non-dict raises an uncaught `TypeError`, and no fresh blob is written. -/
theorem corrupt_blob_set_raises_counterexample :
    decryptParse 7 (.enc 7 (.jsonOther 0)) = none ∧
    (get_credential nonObjectJsonState "github" "alice" false 3).1 = none ∧
    set_credential nonObjectJsonState "github" "alice" "tok" false 3
      = .error nonObjectJsonState := by
  exact ⟨rfl, rfl, rfl⟩

/-- Claim C2 amended: when the encrypted blob does not decrypt and parse to a
JSON object under the current key, `get_credential` returns `none` rather
than raising. A subsequent `set_credential` succeeds and establishes a fresh
valid blob containing exactly the newly written mapping — which
`get_credential` then finds — precisely when the content does not decrypt to
valid JSON at all (Fernet or `json.loads` failure); when it decrypts to valid
JSON that is not an object, `set_credential` raises an uncaught `TypeError`
at the update step and writes nothing. -/
theorem corrupt_blob_get_then_set (st : State) (svc id secret : String)
    (mo mb k : Nat) (blob : Blob)
    (hka : st.keyringAvailable = false)
    (hkey : st.fs.keyFile = some (mo, k))
    (hblob : st.fs.credsFile = some (mb, blob))
    (hcorrupt : decryptParse k blob = none)
    (kf₁ kf₂ kf₃ : Bool) (f₁ f₂ f₃ : Nat) :
    (get_credential st svc id kf₁ f₁).1 = none ∧
    (loadPayload k blob = none →
      set_credential st svc id secret kf₂ f₂
        = .ok { st with fs := writeBlob st.fs (.enc k (.jsonMap [(fullKey svc id, secret)])) } ∧
      (get_credential { st with fs := writeBlob st.fs (.enc k (.jsonMap [(fullKey svc id, secret)])) } svc id kf₃ f₃).1
        = some secret) ∧
    (∀ t, loadPayload k blob = some (.jsonOther t) →
      set_credential st svc id secret kf₂ f₂ = .error st) := by
  rcases st with ⟨ka, ⟨dm, kfile, cfile⟩, kr⟩
  simp only at hka hkey hblob
  subst hka
  subst hkey
  subst hblob
  refine ⟨?_, ?_, ?_⟩
  · simp [get_credential, getOrCreateKey, hcorrupt]
  · intro hnone
    constructor
    · simp [set_credential, getOrCreateKey, hnone, writeBlob, dictInsert]
    · cases kf₃ <;>
        simp [get_credential, getOrCreateKey, writeBlob, decryptParse,
          loadPayload, lookupD]
  · intro t ht
    simp [set_credential, getOrCreateKey, ht]

theorem corrupt_blob_get_then_set_witness :
    (get_credential corruptState "github" "alice" false 3).1 = none ∧
    set_credential corruptState "github" "alice" "tok" false 3
      = .ok { corruptState with fs := writeBlob corruptState.fs (.enc 7 (.jsonMap [(fullKey "github" "alice", "tok")])) } ∧
    (get_credential { corruptState with fs := writeBlob corruptState.fs (.enc 7 (.jsonMap [(fullKey "github" "alice", "tok")])) } "github" "alice" false 3).1 = some "tok" ∧
    set_credential nonObjectJsonState "github" "alice" "tok" false 3
      = .error nonObjectJsonState :=
  ⟨(corrupt_blob_get_then_set corruptState "github" "alice" "tok" 384 384 7
      (.junk 0) rfl rfl rfl rfl false false false 3 3 3).1,
    ((corrupt_blob_get_then_set corruptState "github" "alice" "tok" 384 384 7
      (.junk 0) rfl rfl rfl rfl false false false 3 3 3).2.1 rfl).1,
    ((corrupt_blob_get_then_set corruptState "github" "alice" "tok" 384 384 7
      (.junk 0) rfl rfl rfl rfl false false false 3 3 3).2.1 rfl).2,
    (corrupt_blob_get_then_set nonObjectJsonState "github" "alice" "tok" 384
      384 7 (.enc 7 (.jsonOther 0)) rfl rfl rfl rfl false false false 3 3
      3).2.2 0 rfl⟩

/-- Claim C3 fails as stated: the pairs `("a:b", "c")` and `("a", "b:c")` are
distinct componentwise, yet both serialize to the composite key `"a:b:c"`, so
after storing `"s1"` under the first and `"s2"` under the second, reading the
first returns the second's secret. -/
theorem isolation_claim_counterexample :
    (("a:b" : String) ≠ "a" ∨ ("c" : String) ≠ "b:c") ∧
    set_credential freshFileState "a:b" "c" "s1" false 0
      = .ok (fileStateOf 0 [(fullKey "a:b" "c", "s1")]) ∧
    set_credential (fileStateOf 0 [(fullKey "a:b" "c", "s1")]) "a" "b:c" "s2"
      false 0 = .ok (fileStateOf 0 [("a:b:c", "s2")]) ∧
    (get_credential (fileStateOf 0 [("a:b:c", "s2")]) "a:b" "c" false 0).1
      = some "s2" ∧
    ("s2" : String) ≠ "s1" := by
  refine ⟨Or.inl (by decide), ?_, ?_, ?_, by decide⟩
  · rfl
  · rfl
  · rfl

/-- Claim C3 amended: when the two composite keys `service:identity` are
distinct strings (in particular whenever neither service nor identity
contains the delimiter), storing both credentials (both calls completing)
leaves each retrievable with exactly its own secret, in both backends. -/
theorem isolation_distinct_composites (st : State)
    (svcA idA sA svcB idB sB : String) (f₁ f₂ f₃ f₄ : Nat)
    (hne : fullKey svcA idA ≠ fullKey svcB idB)
    (st₁ st₂ : State)
    (hok₁ : set_credential st svcA idA sA false f₁ = .ok st₁)
    (hok₂ : set_credential st₁ svcB idB sB false f₂ = .ok st₂) :
    (get_credential st₂ svcA idA false f₃).1 = some sA ∧
    (get_credential st₂ svcB idB false f₄).1 = some sB := by
  have hlk : ∀ (m : CredMap) (v : String),
      lookupD (dictInsert m (fullKey svcB idB) v) (fullKey svcA idA)
        = lookupD m (fullKey svcA idA) :=
    fun m v => lookupD_dictInsert_ne m (fullKey svcB idB) v (fullKey svcA idA) hne
  rcases set_ok_inv st svcA idA sA false f₁ st₁ hok₁ with ⟨hc₁, rfl⟩ | ⟨hc₁, rfl⟩
  · simp only [Bool.not_false, Bool.and_true] at hc₁
    rcases set_ok_inv _ svcB idB sB false f₂ st₂ hok₂ with ⟨hc₂, rfl⟩ | ⟨hc₂, rfl⟩
    · constructor
      · simp [get_credential, hc₁, hlk, lookupD_dictInsert_self]
      · simp [get_credential, hc₁, lookupD_dictInsert_self]
    · simp only [Bool.not_false, Bool.and_true] at hc₂
      simp [hc₁] at hc₂
  · simp only [Bool.not_false, Bool.and_true] at hc₁
    have hgood := goodFS_setWriteFS st.fs f₁ (fullKey svcA idA) sA
    have hka₁ : ({ st with fs := setWriteFS st.fs f₁ (fullKey svcA idA) sA } : State).keyringAvailable = false := hc₁
    have hset := set_on_goodFS { st with fs := setWriteFS st.fs f₁ (fullKey svcA idA) sA } (getOrCreateKey st.fs f₁).1
      (dictInsert (loadCreds (getOrCreateKey st.fs f₁).1 st.fs.credsFile) (fullKey svcA idA) sA)
      svcB idB sB false f₂ hka₁ hgood
    rw [hok₂] at hset
    simp only [Except.ok.injEq] at hset
    subst hset
    constructor
    · exact (get_on_goodFS _ _ _ _ _ svcA idA f₃ hc₁
        (goodFS_writeBlob _ _ _ _ hgood)).trans
        (by rw [hlk, lookupD_dictInsert_self])
    · exact (get_on_goodFS _ _ _ _ _ svcB idB f₄ hc₁
        (goodFS_writeBlob _ _ _ _ hgood)).trans
        (by rw [lookupD_dictInsert_self])

theorem isolation_distinct_composites_witness :
    fullKey "github" "u1" ≠ fullKey "github" "u2" ∧
    (get_credential (fileStateOf 0 [(fullKey "github" "u1", "s1"),
        (fullKey "github" "u2", "s2")]) "github" "u1" false 0).1 = some "s1" ∧
    (get_credential (fileStateOf 0 [(fullKey "github" "u1", "s1"),
        (fullKey "github" "u2", "s2")]) "github" "u2" false 0).1 = some "s2" :=
  ⟨by decide,
    (isolation_distinct_composites freshFileState "github" "u1" "s1" "github"
      "u2" "s2" 0 0 0 0 (by decide) _ _ rfl rfl).1,
    (isolation_distinct_composites freshFileState "github" "u1" "s1" "github"
      "u2" "s2" 0 0 0 0 (by decide) _ _ rfl rfl).2⟩

/-- An OS-backend manager whose keyring holds nothing while the encrypted
fallback file holds the credential. -/
def keyringStateWithFile : State :=
  { keyringAvailable := true
    fs := ⟨some 448, some (384, 7),
      some (384, .enc 7 (.jsonMap [("github:alice", "tok")]))⟩
    kr := [] }

/-- Claim C4 fails as stated: with the OS-keyring backend selected, a keyring
error (`krFails = true`) makes `get_credential` read the encrypted fallback
file and return its value, not absent. -/
theorem keyring_error_reads_file_counterexample :
    keyringStateWithFile.keyringAvailable = true ∧
    (get_credential keyringStateWithFile "github" "alice" true 0).1
      = some "tok" ∧
    some "tok" ≠ (none : Option String) := by
  exact ⟨rfl, by decide, by decide⟩

/-- Claim C4 amended: with the OS-keyring backend selected, a keyring miss
(the read succeeds and finds nothing) is reported as absent without reading
the fallback file, while a keyring error makes the call behave exactly like a
file-backend read for this call (returning the file's value or absent); no
exception surfaces either way. -/
theorem keyring_miss_absent_error_falls_back (st : State) (svc id : String)
    (f : Nat) (hka : st.keyringAvailable = true) :
    (lookupD st.kr (fullKey svc id) = none →
      (get_credential st svc id false f).1 = none) ∧
    (get_credential st svc id true f).1
      = (get_credential { st with keyringAvailable := false } svc id
          false f).1 := by
  constructor
  · intro hmiss
    simp [get_credential, hka, hmiss]
  · rcases st with ⟨ka, fs, kr⟩
    simp only at hka
    subst hka
    rcases hcf : fs.credsFile with _ | mb
    · simp [get_credential, hcf]
    · obtain ⟨mmo, mblob⟩ := mb
      rcases hd : decryptParse (getOrCreateKey fs f).1 mblob with _ | creds <;>
        simp [get_credential, hcf, hd]

theorem keyring_miss_absent_error_falls_back_witness :
    (get_credential keyringStateWithFile "github" "alice" false 0).1 = none ∧
    (get_credential keyringStateWithFile "github" "alice" true 0).1
      = (get_credential { keyringStateWithFile with keyringAvailable := false }
          "github" "alice" false 0).1 :=
  ⟨(keyring_miss_absent_error_falls_back keyringStateWithFile "github" "alice"
      0 rfl).1 rfl,
    (keyring_miss_absent_error_falls_back keyringStateWithFile "github"
      "alice" 0 rfl).2⟩

/-- Claim C7: storing any set of credentials through the file backend
starting from a fresh store completes, and afterwards `list_credentials`
contains an identity `id` under a service `svc` exactly when some stored
triple's composite key splits to `(svc, id)` at its first delimiter — no
extras and no omissions. -/
theorem list_after_store_exact (ts : List (String × String × String))
    (f f₂ : Nat) (svc id : String) :
    ∃ st₁, setMany freshFileState ts f = .ok st₁ ∧
      (inResult (list_credentials st₁ f₂).1 svc id ↔
        ∃ t ∈ ts, splitOnce (fullKey t.1 t.2.1) = some (svc, id)) := by
  cases ts with
  | nil =>
    refine ⟨freshFileState, rfl, ?_⟩
    simp [freshFileState, init, list_credentials, inResult]
  | cons t rest =>
    refine ⟨fileStateOf f (insertAllC [(fullKey t.1 t.2.1, t.2.2)] rest),
      ?_, ?_⟩
    · simp only [setMany, set_freshFileState]
      exact setMany_fileStateOf rest f [(fullKey t.1 t.2.1, t.2.2)] f
    · have hall : ∀ p ∈ insertAllC [(fullKey t.1 t.2.1, t.2.2)] rest,
          (splitOnce p.1).isSome := by
        refine allSplit_insertAllC rest _ ?_
        intro p hp
        simp only [List.mem_singleton] at hp
        rw [hp]
        exact splitOnce_fullKey_isSome t.1 t.2.1
      rw [list_fileStateOf, inResult_gatherLoop _ _ _ _ hall,
        exSplit_insertAllC rest [(fullKey t.1 t.2.1, t.2.2)] (svc, id)]
      simp [inResult]

theorem decryptParse_enc_self (k : Nat) (m : CredMap) :
    decryptParse k (.enc k (.jsonMap m)) = some m := by
  simp [decryptParse, loadPayload]

/-- Claim C8: `delete_credential` is idempotent — after deleting a key, a
second delete of the same key (the key now being absent) is a no-op leaving
the whole store state unchanged; as a total function of the embedding it
surfaces no exception. -/
theorem delete_idempotent_noraise (st : State) (svc id : String)
    (f f₂ : Nat) :
    delete_credential (delete_credential st svc id false f) svc id false f₂
      = delete_credential st svc id false f := by
  rcases st with ⟨ka, ⟨dm, kfile, cfile⟩, kr⟩
  rcases cfile with _ | cb
  · cases ka <;> simp [delete_credential, dictErase_idem]
  · obtain ⟨cm, blob⟩ := cb
    rcases kfile with _ | kb
    · rcases hd : decryptParse f blob with _ | creds
      · cases ka <;>
          simp [delete_credential, getOrCreateKey, hd, dictErase_idem]
      · by_cases hck : containsKey creds (fullKey svc id) = true
        · cases ka <;>
            simp [delete_credential, getOrCreateKey, hd, hck, dictErase_idem,
              containsKey_dictErase_self, decryptParse_enc_self]
        · cases ka <;>
            simp [delete_credential, getOrCreateKey, hd, hck, dictErase_idem]
    · obtain ⟨mo, kk⟩ := kb
      rcases hd : decryptParse kk blob with _ | creds
      · cases ka <;>
          simp [delete_credential, getOrCreateKey, hd, dictErase_idem]
      · by_cases hck : containsKey creds (fullKey svc id) = true
        · cases ka <;>
            simp [delete_credential, getOrCreateKey, hd, hck, dictErase_idem,
              containsKey_dictErase_self, decryptParse_enc_self]
        · cases ka <;>
            simp [delete_credential, getOrCreateKey, hd, hck, dictErase_idem]

/-- Owner-only permissions: the configuration directory is `0o700 = 448` and
the key and blob files, when they exist, are `0o600 = 384`. -/
def permOKb (fs : FS) : Bool :=
  (fs.dirMode == some 448) &&
  (match fs.keyFile with
    | none => true
    | some p => p.1 == 384) &&
  (match fs.credsFile with
    | none => true
    | some p => p.1 == 384)

theorem permOKb_setWriteFS (fs : FS) (f : Nat) (k p : String)
    (h : permOKb fs = true) : permOKb (setWriteFS fs f k p) = true := by
  rcases fs with ⟨dm, kfile, cfile⟩
  rcases kfile with _ | kb
  · simp only [permOKb, Bool.and_eq_true, beq_iff_eq] at h
    simp [permOKb, setWriteFS, writeBlob, getOrCreateKey, h.1.1]
  · simp only [permOKb, Bool.and_eq_true, beq_iff_eq] at h
    simp [permOKb, setWriteFS, writeBlob, getOrCreateKey, h.1.1, h.1.2]

/-- Claim C9: construction on a fresh directory establishes the owner-only
permission invariant, and every completed `set_credential` call preserves it:
after any `set` the directory is `0o700` and the key/blob files, when
present, are `0o600`. -/
theorem set_preserves_permissions (kr₀ : CredMap) (pf : Bool) (st : State)
    (svc id pw : String) (kf : Bool) (f : Nat) (st₁ : State)
    (h : permOKb st.fs = true)
    (hok : set_credential st svc id pw kf f = .ok st₁) :
    permOKb (init ⟨none, none, none⟩ kr₀ pf).fs = true ∧
    permOKb st₁.fs = true := by
  refine ⟨rfl, ?_⟩
  rcases set_ok_inv st svc id pw kf f st₁ hok with ⟨_, rfl⟩ | ⟨_, rfl⟩
  · exact h
  · exact permOKb_setWriteFS st.fs f (fullKey svc id) pw h

theorem set_preserves_permissions_witness :
    permOKb (init ⟨none, none, none⟩ [] false).fs = true ∧
    permOKb (fileStateOf 3 [(fullKey "github" "alice", "tok")]).fs = true :=
  set_preserves_permissions [] false freshFileState "github" "alice" "tok"
    false 3 (fileStateOf 3 [(fullKey "github" "alice", "tok")]) rfl rfl

/-- A file-backend manager whose decrypted blob holds a well-formed key, then
a key without the delimiter, then another well-formed key. -/
def malformedKeyState : State :=
  { keyringAvailable := false
    fs := ⟨some 448, some (384, 7),
      some (384, .enc 7 (.jsonMap [("a:x", "1"), ("bad", "2"), ("c:y", "3")]))⟩
    kr := [] }

/-- Claim C10: `list_credentials` never raises; when a stored composite key
lacks the delimiter, the splitting error is swallowed and the result is only
the groupings accumulated from the keys before the malformed one — the
malformed key and every later key are silently dropped. -/
theorem list_partial_on_malformed_key (st : State) (mo mb kk f : Nat)
    (blob : Blob) (pre post : CredMap) (bad v : String)
    (hkey : st.fs.keyFile = some (mo, kk))
    (hblob : st.fs.credsFile = some (mb, blob))
    (hdec : decryptParse kk blob = some (pre ++ (bad, v) :: post))
    (hpre : ∀ p ∈ pre, (splitOnce p.1).isSome)
    (hbad : splitOnce bad = none) :
    (list_credentials st f).1 = gatherLoop pre [] := by
  rcases st with ⟨ka, ⟨dm, kfile, cfile⟩, kr⟩
  simp only at hkey hblob
  subst hkey
  subst hblob
  simp [list_credentials, getOrCreateKey, hdec,
    gatherLoop_abort pre post bad v [] hpre hbad]

theorem list_partial_on_malformed_key_witness :
    (list_credentials malformedKeyState 0).1 = gatherLoop [("a:x", "1")] [] :=
  list_partial_on_malformed_key malformedKeyState 384 384 7 0
    (.enc 7 (.jsonMap [("a:x", "1"), ("bad", "2"), ("c:y", "3")]))
    [("a:x", "1")] [("c:y", "3")] "bad" "2" rfl rfl rfl (by decide) (by decide)

end Owlkit
